import Mathlib

/-!
Verification development for the TempestRemap spectral-element remap kernel
(`src/LinearRemapSE0.cpp`) and its driver (`src/gecore2.cpp`).

All floating-point quantities of the C++ source are embedded as exact
rationals (`ℚ`); claims about the numerical routines are settled in exact
arithmetic, matching the "in exact arithmetic" reading of the specification.
Matrices and vectors are total functions on `ℕ`; every definition states the
index ranges on which its values are meaningful, mirroring the array bounds
of the source.
-/

open Finset

/-! ## Embedding of ForceConsistencyConservation3 (src/LinearRemapSE0.cpp:520-735)

The source routine receives `vecSourceArea` (length `nCols`), `vecTargetArea`
(length `nRows`) and the coefficient matrix `dCoeff` (`nRows × nCols`), and
rewrites `dCoeff` in place.  Here `R` stands for `dCoeff.GetRows()`
(= `nOverlapFaces`) and `Q` for `dCoeff.GetColumns()` (= `nP * nP`). -/

/-- Number of constraint conditions: `nCond = nCondConsistency + nCondConservation - 1`
(src line 535); one conservation condition is dropped due to linear dependence. -/
def nCond (R Q : ℕ) : ℕ := R + (Q - 1)

/-- Row sum of a coefficient matrix over the `Q` columns (the consistency
functional checked by the spec). -/
def rowSum (Q : ℕ) (C : ℕ → ℕ → ℚ) (i : ℕ) : ℚ := ∑ j in range Q, C i j

/-- Target-area weighted column sum (the conservation functional checked by
the spec). -/
def colWSum (R : ℕ) (aTgt : ℕ → ℚ) (C : ℕ → ℕ → ℚ) (j : ℕ) : ℚ :=
  ∑ i in range R, aTgt i * C i j

/-- Entry of the constraint matrix `dC` (src lines 556-573) at coefficient row
`(i,j)` (flattened as `i * Q + j` in the source) and condition column `c`.
Columns `c < R` are the consistency conditions (value 1 on every coefficient of
row `i = c`); columns `R ≤ c < nCond R Q` are the conservation conditions
(value `vecTargetArea[i]` on the coefficients of matrix column `c - R`).
Meaningful for `i < R`, `j < Q`, `c < nCond R Q`. -/
def constraintCol (R : ℕ) (aTgt : ℕ → ℚ) (i j c : ℕ) : ℚ :=
  if c < R then (if i = c then 1 else 0)
  else (if j = c - R then aTgt i else 0)

/-- The scalar `dP = ∑ vecTargetArea[i]²` (src lines 576-579). -/
def schurP (R : ℕ) (aTgt : ℕ → ℚ) : ℚ := ∑ i in range R, aTgt i * aTgt i

/-- The Schur matrix `dCCt` as assembled analytically by the source
(src lines 581-592): top-left block `diag(Q)`, coupling blocks `vecTargetArea`,
bottom-right block `diag(dP)`; all remaining entries are zero (the array is
zero-initialized).  Argument order is `(row, column)`; meaningful for
`c < nCond R Q` and `cc < nCond R Q`. -/
def schurM (R Q : ℕ) (aTgt : ℕ → ℚ) (c cc : ℕ) : ℚ :=
  if c < R then (if cc = c then (Q : ℚ) else if R ≤ cc then aTgt c else 0)
  else if cc < R then aTgt cc
  else if cc = c then schurP R aTgt else 0

/-- The reduced right-hand side `y = dCᵀ · r_top − r_bot` computed by the first
`dgemv_` call (src lines 613-633): the constraint matrix applied to the current
(flattened) coefficients, minus the constraint targets `r_bot` (1 for the
consistency rows, `vecSourceArea[c - R]` for the conservation rows,
src lines 562 and 571). -/
def schurY (R Q : ℕ) (aSrc aTgt : ℕ → ℚ) (C : ℕ → ℕ → ℚ) (c : ℕ) : ℚ :=
  (∑ i in range R, ∑ j in range Q, constraintCol R aTgt i j c * C i j)
    - (if c < R then 1 else aSrc (c - R))

/-- The scalar `∑ aTgt i * y i` over the consistency rows, used by the explicit
solution of the Schur system. -/
def fccA1 (R Q : ℕ) (aSrc aTgt : ℕ → ℚ) (C : ℕ → ℕ → ℚ) : ℚ :=
  ∑ i in range R, aTgt i * schurY R Q aSrc aTgt C i

/-- The scalar `∑ y (R + j)` over the conservation rows, used by the explicit
solution of the Schur system. -/
def fccT2 (R Q : ℕ) (aSrc aTgt : ℕ → ℚ) (C : ℕ → ℕ → ℚ) : ℚ :=
  ∑ j in range (Q - 1), schurY R Q aSrc aTgt C (R + j)

/-- The scalar `∑_{j} z (R + j)` of the explicit Schur solution, obtained by
eliminating the block structure of `dCCt`. -/
def fccS (R Q : ℕ) (aSrc aTgt : ℕ → ℚ) (C : ℕ → ℕ → ℚ) : ℚ :=
  ((Q : ℚ) * fccT2 R Q aSrc aTgt C - ((Q : ℚ) - 1) * fccA1 R Q aSrc aTgt C)
    / schurP R aTgt

/-- Modelled from the spec: the CLAPACK routine `dposv_` called at src lines
655-663 is not part of this repository's sources; the spec (§4.4 step 5) states
that it solves the symmetric positive definite Schur system `M z = y` (by
Cholesky factorization) and reports failure through a non-zero `info`.  We
model its output by the explicit block solution of `M z = y`; `fcc3` below
accepts it only after verifying `M z = y` exactly, so the model succeeds
precisely when this candidate is a true solution (which it is whenever `M` is
invertible, in particular whenever `M` is SPD). -/
def fccZ (R Q : ℕ) (aSrc aTgt : ℕ → ℚ) (C : ℕ → ℕ → ℚ) (c : ℕ) : ℚ :=
  if c < R then
    (schurY R Q aSrc aTgt C c - aTgt c * fccS R Q aSrc aTgt C) / (Q : ℚ)
  else
    (schurY R Q aSrc aTgt C c - fccA1 R Q aSrc aTgt C / (Q : ℚ)) / schurP R aTgt
      + fccS R Q aSrc aTgt C / (Q : ℚ)

/-- The corrected coefficients `r_top − dC · z` computed by the second `dgemv_`
call (src lines 669-682) and stored back into `dCoeff` (src lines 684-691). -/
def fcc3Update (R Q : ℕ) (aSrc aTgt : ℕ → ℚ) (C : ℕ → ℕ → ℚ) : ℕ → ℕ → ℚ :=
  fun i j =>
    C i j - ∑ c in range (nCond R Q),
      constraintCol R aTgt i j c * fccZ R Q aSrc aTgt C c

/-- `dTotalJacobian = ∑ vecSourceArea[i]` (src lines 697-700). -/
def monoTotal (Q : ℕ) (aSrc : ℕ → ℚ) : ℚ := ∑ j in range Q, aSrc j

/-- The low-order donor coefficients `dMonoCoeff[i][j] = vecSourceArea[j] /
dTotalJacobian` (src lines 703-712); constant across rows `i`. -/
def monoCoeff (Q : ℕ) (aSrc : ℕ → ℚ) (i j : ℕ) : ℚ :=
  aSrc j / monoTotal Q aSrc

/-- The scaling factor `dA` (src lines 714-727): the maximum, over all entries
`(i,j)` with `dCoeff[i][j] < 0`, of `−dCoeff[i][j] / |dMonoCoeff[i][j] −
dCoeff[i][j]|`, starting from 0. -/
def monoScale (R Q : ℕ) (aSrc : ℕ → ℚ) (C : ℕ → ℕ → ℚ) : ℚ :=
  ((range R ×ˢ range Q).filter fun p => C p.1 p.2 < 0).fold max 0
    fun p => - C p.1 p.2 / |monoCoeff Q aSrc p.1 p.2 - C p.1 p.2|

/-- The monotone post-blend `dCoeff ← (1 − dA) · dCoeff + dA · dMonoCoeff`
(src lines 729-733). -/
def monoBlend (R Q : ℕ) (aSrc : ℕ → ℚ) (C : ℕ → ℕ → ℚ) : ℕ → ℕ → ℚ :=
  fun i j =>
    (1 - monoScale R Q aSrc C) * C i j
      + monoScale R Q aSrc C * monoCoeff Q aSrc i j

/-- Embedding of `ForceConsistencyConservation3` (src lines 520-735).
`R` is `dCoeff.GetRows()` (the number of overlap faces), `Q` is
`dCoeff.GetColumns()` (`nP * nP`).  Returns `none` when the SPD solve fails
(`_EXCEPTION1("Unable to solve SPD Schur system")`, src line 666), otherwise
the rewritten coefficient matrix, post-blended when `fMonotone` is set. -/
def fcc3 (R Q : ℕ) (aSrc aTgt : ℕ → ℚ) (C : ℕ → ℕ → ℚ) (fMonotone : Bool) :
    Option (ℕ → ℕ → ℚ) :=
  if ∀ c ∈ range (nCond R Q),
      (∑ cc in range (nCond R Q),
        schurM R Q aTgt c cc * fccZ R Q aSrc aTgt C cc)
        = schurY R Q aSrc aTgt C c then
    some (if fMonotone then monoBlend R Q aSrc (fcc3Update R Q aSrc aTgt C)
          else fcc3Update R Q aSrc aTgt C)
  else none

/-! ### Structural lemmas about the Schur system -/

lemma sum_range_split (f : ℕ → ℚ) (a b : ℕ) :
    ∑ c in range (a + b), f c
      = (∑ c in range a, f c) + ∑ c in range b, f (a + c) := by
  induction b with
  | zero => simp
  | succ n ih =>
      rw [Nat.add_succ, Finset.sum_range_succ, ih, Finset.sum_range_succ,
        add_assoc]

/-- Column totals of the constraint matrix over one coefficient row agree with
the corresponding row of the analytic `dCCt`. -/
lemma constraint_row_total (R Q : ℕ) (aTgt : ℕ → ℚ) {i c : ℕ}
    (hi : i < R) (hc : c < nCond R Q) :
    ∑ j in range Q, constraintCol R aTgt i j c = schurM R Q aTgt i c := by
  unfold constraintCol schurM
  by_cases hcR : c < R
  · simp only [if_pos hcR, if_pos hi, Finset.sum_const, card_range, nsmul_eq_mul]
    have hRc : ¬ R ≤ c := not_le.mpr hcR
    by_cases hic : i = c
    · simp [hic]
    · have hci : ¬ c = i := fun h => hic h.symm
      simp [hic, hci, hRc]
  · have hcQ : c - R < Q := by
      unfold nCond at hc; omega
    simp only [if_neg hcR, if_pos hi]
    rw [Finset.sum_ite_eq' (range Q) (c - R) (fun _ => aTgt i)]
    have hcc : ¬ c = i := by omega
    have hRc : R ≤ c := le_of_not_lt hcR
    simp [hcQ, hcc, hRc]

/-- Target-weighted column totals of the constraint matrix agree with row
`R + j` of the analytic `dCCt`. -/
lemma constraint_col_total (R Q : ℕ) (aTgt : ℕ → ℚ) {j c : ℕ}
    (hj : j < Q - 1) (hc : c < nCond R Q) :
    ∑ i in range R, aTgt i * constraintCol R aTgt i j c
      = schurM R Q aTgt (R + j) c := by
  unfold constraintCol schurM
  have hRj : ¬ R + j < R := by omega
  by_cases hcR : c < R
  · simp only [if_pos hcR, if_neg hRj, mul_ite, mul_one, mul_zero]
    rw [Finset.sum_ite_eq' (range R) c aTgt]
    simp [hcR]
  · simp only [if_neg hcR, if_neg hRj, mul_ite, mul_zero]
    have hne : ¬ c < R := hcR
    by_cases hjc : j = c - R
    · have hc' : c = R + j := by unfold nCond at hc; omega
      subst hc'
      simp [schurP]
    · have hcj : ¬ c = R + j := by omega
      simp [hjc, hcj]

/-- For a consistency row `i < R`, the reduced right-hand side is the current
row sum minus the consistency target 1. -/
lemma schurY_row (R Q : ℕ) (aSrc aTgt : ℕ → ℚ) (C : ℕ → ℕ → ℚ) {i : ℕ}
    (hi : i < R) :
    schurY R Q aSrc aTgt C i = rowSum Q C i - 1 := by
  unfold schurY
  rw [if_pos hi]
  congr 1
  have h : ∀ x ∈ range R,
      ∑ j in range Q, constraintCol R aTgt x j i * C x j
        = if x = i then rowSum Q C x else 0 := by
    intro x _
    by_cases hx : x = i
    · subst hx
      simp [constraintCol, hi, rowSum]
    · simp [constraintCol, hi, hx]
  rw [Finset.sum_congr rfl h, Finset.sum_ite_eq' (range R) i]
  simp [hi]

/-- For a conservation row `R ≤ c < nCond`, the reduced right-hand side is the
current weighted column sum minus the conservation target. -/
lemma schurY_col (R Q : ℕ) (aSrc aTgt : ℕ → ℚ) (C : ℕ → ℕ → ℚ) {c : ℕ}
    (hcR : R ≤ c) (hc : c < nCond R Q) :
    schurY R Q aSrc aTgt C c = colWSum R aTgt C (c - R) - aSrc (c - R) := by
  unfold schurY
  have hcR' : ¬ c < R := not_lt.mpr hcR
  rw [if_neg hcR']
  congr 1
  unfold colWSum
  refine Finset.sum_congr rfl fun i _ => ?_
  have hcQ : c - R < Q := by unfold nCond at hc; omega
  simp only [constraintCol, if_neg hcR', ite_mul, zero_mul]
  rw [Finset.sum_ite_eq' (range Q) (c - R) (fun j => aTgt i * C i j)]
  simp [hcQ]

/-- Row sums of the corrected coefficients, written through the analytic
Schur matrix. -/
lemma update_rowSum (R Q : ℕ) (aSrc aTgt : ℕ → ℚ) (C : ℕ → ℕ → ℚ) {i : ℕ}
    (hi : i < R) :
    rowSum Q (fcc3Update R Q aSrc aTgt C) i
      = rowSum Q C i - ∑ c in range (nCond R Q),
          schurM R Q aTgt i c * fccZ R Q aSrc aTgt C c := by
  unfold rowSum fcc3Update
  rw [Finset.sum_sub_distrib]
  congr 1
  rw [Finset.sum_comm]
  refine Finset.sum_congr rfl fun c hc => ?_
  rw [← Finset.sum_mul, constraint_row_total R Q aTgt hi (mem_range.mp hc)]

/-- Weighted column sums of the corrected coefficients, written through the
analytic Schur matrix; valid for the retained conservation columns. -/
lemma update_colWSum (R Q : ℕ) (aSrc aTgt : ℕ → ℚ) (C : ℕ → ℕ → ℚ) {j : ℕ}
    (hj : j < Q - 1) :
    colWSum R aTgt (fcc3Update R Q aSrc aTgt C) j
      = colWSum R aTgt C j - ∑ c in range (nCond R Q),
          schurM R Q aTgt (R + j) c * fccZ R Q aSrc aTgt C c := by
  unfold colWSum fcc3Update
  simp only [mul_sub, Finset.mul_sum]
  rw [Finset.sum_sub_distrib]
  congr 1
  rw [Finset.sum_comm]
  refine Finset.sum_congr rfl fun c hc => ?_
  have hassoc : ∀ x ∈ range R,
      aTgt x * (constraintCol R aTgt x j c * fccZ R Q aSrc aTgt C c)
        = (aTgt x * constraintCol R aTgt x j c) * fccZ R Q aSrc aTgt C c :=
    fun x _ => (mul_assoc _ _ _).symm
  rw [Finset.sum_congr rfl hassoc, ← Finset.sum_mul,
    constraint_col_total R Q aTgt hj (mem_range.mp hc)]

/-- Once the verified Schur solution is in hand, every row of the corrected
matrix sums to exactly one. -/
lemma solved_rowSum (R Q : ℕ) (aSrc aTgt : ℕ → ℚ) (C : ℕ → ℕ → ℚ)
    (hsolve : ∀ c ∈ range (nCond R Q),
      (∑ cc in range (nCond R Q),
        schurM R Q aTgt c cc * fccZ R Q aSrc aTgt C cc)
        = schurY R Q aSrc aTgt C c)
    {i : ℕ} (hi : i < R) :
    rowSum Q (fcc3Update R Q aSrc aTgt C) i = 1 := by
  have hmem : i ∈ range (nCond R Q) := mem_range.mpr (by unfold nCond; omega)
  rw [update_rowSum R Q aSrc aTgt C hi, hsolve i hmem,
    schurY_row R Q aSrc aTgt C hi]
  ring

/-- Once the verified Schur solution is in hand, each retained conservation
column of the corrected matrix meets its target exactly. -/
lemma solved_colWSum_lt (R Q : ℕ) (aSrc aTgt : ℕ → ℚ) (C : ℕ → ℕ → ℚ)
    (hsolve : ∀ c ∈ range (nCond R Q),
      (∑ cc in range (nCond R Q),
        schurM R Q aTgt c cc * fccZ R Q aSrc aTgt C cc)
        = schurY R Q aSrc aTgt C c)
    {j : ℕ} (hj : j < Q - 1) :
    colWSum R aTgt (fcc3Update R Q aSrc aTgt C) j = aSrc j := by
  have hmem : R + j ∈ range (nCond R Q) := mem_range.mpr (by unfold nCond; omega)
  rw [update_colWSum R Q aSrc aTgt C hj, hsolve (R + j) hmem,
    schurY_col R Q aSrc aTgt C (Nat.le_add_right R j) (mem_range.mp hmem)]
  rw [Nat.add_sub_cancel_left]
  ring

/-- The dropped conservation column is recovered by linear dependence: when
the total target area equals the total source area, the last column also meets
its target. -/
lemma solved_colWSum (R Q : ℕ) (aSrc aTgt : ℕ → ℚ) (C : ℕ → ℕ → ℚ)
    (htot : (∑ i in range R, aTgt i) = ∑ j in range Q, aSrc j)
    (hsolve : ∀ c ∈ range (nCond R Q),
      (∑ cc in range (nCond R Q),
        schurM R Q aTgt c cc * fccZ R Q aSrc aTgt C cc)
        = schurY R Q aSrc aTgt C c)
    {j : ℕ} (hj : j < Q) :
    colWSum R aTgt (fcc3Update R Q aSrc aTgt C) j = aSrc j := by
  by_cases hj1 : j < Q - 1
  · exact solved_colWSum_lt R Q aSrc aTgt C hsolve hj1
  · have hQ1 : Q = (Q - 1) + 1 := by omega
    have hjeq : j = Q - 1 := by omega
    subst hjeq
    have hsplit : ∀ g : ℕ → ℚ,
        ∑ jj in range Q, g jj = (∑ jj in range (Q - 1), g jj) + g (Q - 1) := by
      intro g
      conv_lhs => rw [hQ1]
      exact Finset.sum_range_succ g (Q - 1)
    unfold colWSum
    have h1 : ∀ i ∈ range R,
        aTgt i * fcc3Update R Q aSrc aTgt C i (Q - 1)
          = aTgt i
            - aTgt i * ∑ jj in range (Q - 1), fcc3Update R Q aSrc aTgt C i jj := by
      intro i hiR
      have hr := solved_rowSum R Q aSrc aTgt C hsolve (mem_range.mp hiR)
      unfold rowSum at hr
      rw [hsplit] at hr
      have hlast : fcc3Update R Q aSrc aTgt C i (Q - 1)
          = 1 - ∑ jj in range (Q - 1), fcc3Update R Q aSrc aTgt C i jj := by
        linarith
      rw [hlast]; ring
    rw [Finset.sum_congr rfl h1, Finset.sum_sub_distrib]
    have h2 : ∑ i in range R,
        aTgt i * ∑ jj in range (Q - 1), fcc3Update R Q aSrc aTgt C i jj
          = ∑ jj in range (Q - 1), aSrc jj := by
      simp only [Finset.mul_sum]
      rw [Finset.sum_comm]
      refine Finset.sum_congr rfl fun jj hjj => ?_
      exact solved_colWSum_lt R Q aSrc aTgt C hsolve (mem_range.mp hjj)
    rw [h2, htot, hsplit aSrc]
    ring

/-- Unpacking a successful run of the embedded corrector: the verified Schur
solution holds, and the output is the corrected (optionally blended) matrix. -/
lemma fcc3_eq_some (R Q : ℕ) (aSrc aTgt : ℕ → ℚ) (C : ℕ → ℕ → ℚ) (m : Bool)
    (C' : ℕ → ℕ → ℚ) (h : fcc3 R Q aSrc aTgt C m = some C') :
    (∀ c ∈ range (nCond R Q),
      (∑ cc in range (nCond R Q),
        schurM R Q aTgt c cc * fccZ R Q aSrc aTgt C cc)
        = schurY R Q aSrc aTgt C c)
    ∧ C' = (if m then monoBlend R Q aSrc (fcc3Update R Q aSrc aTgt C)
            else fcc3Update R Q aSrc aTgt C) := by
  unfold fcc3 at h
  split at h
  · exact ⟨by assumption, (Option.some.inj h).symm⟩
  · exact absurd h (by simp)

/-! ### Claims C1-C3: consistency, conservation, idempotence -/

/-- C1.  For every coefficient matrix `C` (`nRows = R` overlap faces,
`nCols = Q = nP * nP`), after `ForceConsistencyConservation3` with
`monotone = false` completes, the rewritten matrix satisfies consistency:
every row `i < R` sums to exactly 1 (exact arithmetic). -/
theorem fcc3_consistency (R Q : ℕ) (aSrc aTgt : ℕ → ℚ) (C C' : ℕ → ℕ → ℚ)
    (h : fcc3 R Q aSrc aTgt C false = some C') {i : ℕ} (hi : i < R) :
    rowSum Q C' i = 1 := by
  obtain ⟨hsolve, hC'⟩ := fcc3_eq_some R Q aSrc aTgt C false C' h
  rw [if_neg Bool.false_ne_true] at hC'
  rw [hC']
  exact solved_rowSum R Q aSrc aTgt C hsolve hi

/-- Concrete source-area vector `(1/2, 1/2)` used by the witness instances. -/
def wSrc : ℕ → ℚ := fun j => if j = 0 then 1/2 else if j = 1 then 1/2 else 0

/-- Concrete target-area vector `(1)` used by the witness instances. -/
def wTgt : ℕ → ℚ := fun _ => 1

/-- Concrete raw coefficient matrix (all zero) used by the witness instances. -/
def wC : ℕ → ℕ → ℚ := fun _ _ => 0

/-- On the concrete witness instance the verified Schur solution holds. -/
lemma wSolve : ∀ c ∈ range (nCond 1 2),
    (∑ cc in range (nCond 1 2),
      schurM 1 2 wTgt c cc * fccZ 1 2 wSrc wTgt wC cc)
      = schurY 1 2 wSrc wTgt wC c := by
  intro c hc
  fin_cases hc <;>
    norm_num [schurM, schurY, fccZ, fccS, fccT2, fccA1, schurP, constraintCol,
      nCond, wSrc, wTgt, wC, Finset.sum_range_succ]

/-- On the concrete witness instance the corrector completes. -/
lemma wRun : fcc3 1 2 wSrc wTgt wC false = some (fcc3Update 1 2 wSrc wTgt wC) := by
  unfold fcc3
  rw [if_pos wSolve, if_neg Bool.false_ne_true]

theorem fcc3_consistency_witness :
    fcc3 1 2 wSrc wTgt wC false = some (fcc3Update 1 2 wSrc wTgt wC)
      ∧ rowSum 2 (fcc3Update 1 2 wSrc wTgt wC) 0 = 1 :=
  ⟨wRun, fcc3_consistency 1 2 wSrc wTgt wC _ wRun (by norm_num)⟩

/-- C2.  Under the precondition that the total target area equals the total
source area, after `ForceConsistencyConservation3` with `monotone = false`
completes, every column `j < Q` satisfies conservation exactly:
`∑_i aTgt i * C'[i][j] = aSrc j`.  The last column, dropped from the
constraint system, is recovered by linear dependence. -/
theorem fcc3_conservation (R Q : ℕ) (aSrc aTgt : ℕ → ℚ) (C C' : ℕ → ℕ → ℚ)
    (htot : (∑ i in range R, aTgt i) = ∑ j in range Q, aSrc j)
    (h : fcc3 R Q aSrc aTgt C false = some C') {j : ℕ} (hj : j < Q) :
    colWSum R aTgt C' j = aSrc j := by
  obtain ⟨hsolve, hC'⟩ := fcc3_eq_some R Q aSrc aTgt C false C' h
  rw [if_neg Bool.false_ne_true] at hC'
  rw [hC']
  exact solved_colWSum R Q aSrc aTgt C htot hsolve hj

theorem fcc3_conservation_witness :
    ((∑ i in range 1, wTgt i) = ∑ j in range 2, wSrc j)
      ∧ colWSum 1 wTgt (fcc3Update 1 2 wSrc wTgt wC) 1 = wSrc 1 := by
  have htot : (∑ i in range 1, wTgt i) = ∑ j in range 2, wSrc j := by
    norm_num [wSrc, wTgt, Finset.sum_range_succ]
  exact ⟨htot, fcc3_conservation 1 2 wSrc wTgt wC _ htot wRun (by norm_num)⟩

/-- C3.  `ForceConsistencyConservation3` with `monotone = false` is the
identity on feasible inputs: if `C` already satisfies the consistency and
conservation invariants exactly, the corrector completes and returns `C`
unchanged. -/
theorem fcc3_identity_on_feasible (R Q : ℕ) (aSrc aTgt : ℕ → ℚ)
    (C : ℕ → ℕ → ℚ)
    (hrow : ∀ i < R, rowSum Q C i = 1)
    (hcol : ∀ j < Q, colWSum R aTgt C j = aSrc j) :
    fcc3 R Q aSrc aTgt C false = some (fcc3Update R Q aSrc aTgt C)
      ∧ ∀ i j, fcc3Update R Q aSrc aTgt C i j = C i j := by
  have hy : ∀ c ∈ range (nCond R Q), schurY R Q aSrc aTgt C c = 0 := by
    intro c hc
    rcases lt_or_ge c R with hcR | hcR
    · rw [schurY_row R Q aSrc aTgt C hcR, hrow c hcR]
      ring
    · have hcQ : c - R < Q := by
        have := mem_range.mp hc; unfold nCond at this; omega
      rw [schurY_col R Q aSrc aTgt C hcR (mem_range.mp hc), hcol (c - R) hcQ]
      ring
  have hA1 : fccA1 R Q aSrc aTgt C = 0 := by
    unfold fccA1
    refine Finset.sum_eq_zero fun i hiR => ?_
    have hiN : i ∈ range (nCond R Q) := by
      have := mem_range.mp hiR
      exact mem_range.mpr (by unfold nCond; omega)
    rw [hy i hiN, mul_zero]
  have hT2 : fccT2 R Q aSrc aTgt C = 0 := by
    unfold fccT2
    refine Finset.sum_eq_zero fun j hjQ => ?_
    have hjN : R + j ∈ range (nCond R Q) := by
      have := mem_range.mp hjQ
      exact mem_range.mpr (by unfold nCond; omega)
    exact hy (R + j) hjN
  have hS : fccS R Q aSrc aTgt C = 0 := by
    unfold fccS
    rw [hA1, hT2]
    ring_nf
  have hz : ∀ c ∈ range (nCond R Q), fccZ R Q aSrc aTgt C c = 0 := by
    intro c hc
    unfold fccZ
    rcases lt_or_ge c R with hcR | hcR
    · rw [if_pos hcR, hy c hc, hS]
      ring_nf
    · rw [if_neg (not_lt.mpr hcR), hy c hc, hA1, hS]
      ring_nf
  have hupd : ∀ i j, fcc3Update R Q aSrc aTgt C i j = C i j := by
    intro i j
    unfold fcc3Update
    rw [Finset.sum_eq_zero fun c hc => by rw [hz c hc, mul_zero]]
    ring
  have hsolve : ∀ c ∈ range (nCond R Q),
      (∑ cc in range (nCond R Q),
        schurM R Q aTgt c cc * fccZ R Q aSrc aTgt C cc)
        = schurY R Q aSrc aTgt C c := by
    intro c hc
    rw [Finset.sum_eq_zero fun cc hcc => by rw [hz cc hcc, mul_zero], hy c hc]
  refine ⟨?_, hupd⟩
  unfold fcc3
  rw [if_pos hsolve, if_neg Bool.false_ne_true]

theorem fcc3_identity_on_feasible_witness :
    (∀ i < 1, rowSum 2 (fun _ j => wSrc j) i = 1)
      ∧ (∀ j < 2, colWSum 1 wTgt (fun _ j => wSrc j) j = wSrc j)
      ∧ fcc3 1 2 wSrc wTgt (fun _ j => wSrc j) false
          = some (fcc3Update 1 2 wSrc wTgt (fun _ j => wSrc j))
      ∧ fcc3Update 1 2 wSrc wTgt (fun _ j => wSrc j) 0 1 = wSrc 1 := by
  have hrow : ∀ i < 1, rowSum 2 (fun _ j => wSrc j) i = 1 := by
    intro i _
    norm_num [rowSum, wSrc, Finset.sum_range_succ]
  have hcol : ∀ j < 2, colWSum 1 wTgt (fun _ j => wSrc j) j = wSrc j := by
    intro j _
    norm_num [colWSum, wTgt, Finset.sum_range_succ]
  obtain ⟨hsome, hid⟩ :=
    fcc3_identity_on_feasible 1 2 wSrc wTgt (fun _ j => wSrc j) hrow hcol
  exact ⟨hrow, hcol, hsome, hid 0 1⟩

/-! ### Claim C4: monotone blend produces nonnegative coefficients -/

lemma monoScale_nonneg (R Q : ℕ) (aSrc : ℕ → ℚ) (C : ℕ → ℕ → ℚ) :
    0 ≤ monoScale R Q aSrc C := by
  unfold monoScale
  rw [Finset.le_fold_max]
  exact Or.inl le_rfl

lemma monoScale_le_one (R Q : ℕ) (aSrc : ℕ → ℚ) (C : ℕ → ℕ → ℚ)
    (hsrc : ∀ j < Q, 0 ≤ aSrc j) (htot : 0 < monoTotal Q aSrc) :
    monoScale R Q aSrc C ≤ 1 := by
  unfold monoScale
  rw [Finset.fold_max_le]
  refine ⟨zero_le_one, fun p hp => ?_⟩
  obtain ⟨hmem, hneg⟩ := Finset.mem_filter.mp hp
  have hpQ : p.2 < Q := mem_range.mp (Finset.mem_product.mp hmem).2
  have hD : 0 ≤ monoCoeff Q aSrc p.1 p.2 := by
    unfold monoCoeff
    exact div_nonneg (hsrc p.2 hpQ) htot.le
  have ht : 0 < monoCoeff Q aSrc p.1 p.2 - C p.1 p.2 := by linarith
  rw [abs_of_pos ht, div_le_one ht]
  linarith

/-- The monotone post-blend leaves no negative entry inside the coefficient
matrix, for any input matrix, provided the source areas are nonnegative with
positive total. -/
lemma monoBlend_nonneg (R Q : ℕ) (aSrc : ℕ → ℚ) (C : ℕ → ℕ → ℚ)
    (hsrc : ∀ j < Q, 0 ≤ aSrc j) (htot : 0 < monoTotal Q aSrc)
    {i j : ℕ} (hi : i < R) (hj : j < Q) :
    0 ≤ monoBlend R Q aSrc C i j := by
  have h0 : 0 ≤ monoScale R Q aSrc C := monoScale_nonneg R Q aSrc C
  have h1 : monoScale R Q aSrc C ≤ 1 := monoScale_le_one R Q aSrc C hsrc htot
  have hD : 0 ≤ monoCoeff Q aSrc i j := by
    unfold monoCoeff
    exact div_nonneg (hsrc j hj) htot.le
  unfold monoBlend
  rcases lt_or_ge (C i j) 0 with hneg | hpos
  · have hmem : (i, j) ∈ (range R ×ˢ range Q).filter fun p => C p.1 p.2 < 0 :=
      Finset.mem_filter.mpr
        ⟨Finset.mem_product.mpr ⟨mem_range.mpr hi, mem_range.mpr hj⟩, hneg⟩
    have hge : - C i j / |monoCoeff Q aSrc i j - C i j| ≤ monoScale R Q aSrc C := by
      unfold monoScale
      rw [Finset.le_fold_max]
      exact Or.inr ⟨(i, j), hmem, le_rfl⟩
    have ht : 0 < monoCoeff Q aSrc i j - C i j := by linarith
    rw [abs_of_pos ht, div_le_iff₀ ht] at hge
    have hsplit : (1 - monoScale R Q aSrc C) * C i j
        + monoScale R Q aSrc C * monoCoeff Q aSrc i j
        = C i j + monoScale R Q aSrc C * (monoCoeff Q aSrc i j - C i j) := by
      ring
    rw [hsplit]
    linarith
  · have hterm1 : 0 ≤ (1 - monoScale R Q aSrc C) * C i j :=
      mul_nonneg (by linarith) hpos
    have hterm2 : 0 ≤ monoScale R Q aSrc C * monoCoeff Q aSrc i j :=
      mul_nonneg h0 hD
    linarith

/-- C4.  For every coefficient matrix and every nonnegative source-area vector
with positive total, after `ForceConsistencyConservation3` with
`monotone = true` completes, every entry of the rewritten matrix is
nonnegative: the blend `(1-dA)*C + dA*D` with the donor
`D[i][j] = aSrc j / ∑ aSrc` and the scale
`dA = max (-C[i][j] / |D[i][j] - C[i][j]|)` over negative entries removes all
negatives. -/
theorem fcc3_monotone_nonneg (R Q : ℕ) (aSrc aTgt : ℕ → ℚ) (C C' : ℕ → ℕ → ℚ)
    (hsrc : ∀ j < Q, 0 ≤ aSrc j) (htot : 0 < monoTotal Q aSrc)
    (h : fcc3 R Q aSrc aTgt C true = some C') {i j : ℕ}
    (hi : i < R) (hj : j < Q) :
    0 ≤ C' i j := by
  obtain ⟨hsolve, hC'⟩ := fcc3_eq_some R Q aSrc aTgt C true C' h
  rw [if_pos rfl] at hC'
  rw [hC']
  exact monoBlend_nonneg R Q aSrc _ hsrc htot hi hj

theorem fcc3_monotone_nonneg_witness :
    fcc3 1 2 wSrc wTgt wC true
        = some (monoBlend 1 2 wSrc (fcc3Update 1 2 wSrc wTgt wC))
      ∧ 0 ≤ monoBlend 1 2 wSrc (fcc3Update 1 2 wSrc wTgt wC) 0 1 := by
  have hsrc : ∀ j < 2, 0 ≤ wSrc j := by
    intro j _
    by_cases h0 : j = 0 <;> by_cases h1 : j = 1 <;> norm_num [wSrc, h0, h1]
  have htot : 0 < monoTotal 2 wSrc := by
    norm_num [monoTotal, wSrc, Finset.sum_range_succ]
  have h : fcc3 1 2 wSrc wTgt wC true
      = some (monoBlend 1 2 wSrc (fcc3Update 1 2 wSrc wTgt wC)) := by
    unfold fcc3
    rw [if_pos wSolve, if_pos rfl]
  exact ⟨h, fcc3_monotone_nonneg 1 2 wSrc wTgt wC _ hsrc htot h
    (by norm_num) (by norm_num)⟩

/-! ## Embedding of ParseVariableList (src/gecore2.cpp:35-64) -/

/-- Delimiter test used by the parser loop (src lines 45-46): comma or space. -/
def isDelim (c : Char) : Bool := c = ',' || c = ' '

/-- Loop state of `ParseVariableList`: `iVarBegin`, `iVarCurrent`, and the
accumulated `vecVariableStrings`. -/
structure PVState where
  vb : ℕ
  cur : ℕ
  acc : List (List Char)
deriving DecidableEq

/-- Result of one execution of the `for (;;)` body: either the `break` at
src line 50 with the final accumulator, or the successor state. -/
inductive PVStep where
  | done (acc : List (List Char))
  | next (st : PVState)
deriving DecidableEq

/-- One iteration of the parser loop (src lines 43-63).  In the delimiter
branch with an empty pending token and `iVarCurrent` still inside the string,
the source executes `continue` (src line 53) without modifying any variable;
this embedding reproduces that faithfully: the successor state equals the
input state. -/
def parseStep (s : List Char) (st : PVState) : PVStep :=
  if s.length ≤ st.cur ∨ isDelim (s.getD st.cur ' ') = true then
    if st.cur = st.vb then
      (if s.length ≤ st.cur then .done st.acc else .next st)
    else
      .next ⟨st.cur + 1, st.cur + 1,
        st.acc ++ [(s.drop st.vb).take (st.cur - st.vb)]⟩
  else .next ⟨st.vb, st.cur + 1, st.acc⟩

/-- Fuel-indexed execution of the parser loop; `none` means the loop has not
reached its `break` within `fuel` iterations. -/
def parseRun (s : List Char) : ℕ → PVState → Option (List (List Char))
  | 0, _ => none
  | fuel + 1, st =>
    match parseStep s st with
    | .done acc => some acc
    | .next st2 => parseRun s fuel st2

/-- Embedding of `ParseVariableList` (src lines 35-64): run the loop from
`iVarBegin = iVarCurrent = 0` with an empty accumulator. -/
def parseVariableList (s : List Char) (fuel : ℕ) : Option (List (List Char)) :=
  parseRun s fuel ⟨0, 0, []⟩

/-- On a well-formed variable list the embedded loop terminates and returns
the comma/space-separated tokens (fidelity check of the embedding). -/
theorem parseVariableList_tokens :
    parseVariableList [ 'a', ',', 'b', ' ', 'c'] 16
      = some [[ 'a'], [ 'b'], [ 'c']] := by decide

/-- C10.  `ParseVariableList` does not terminate on the input string `","`:
the `continue` at src/gecore2.cpp:53 is executed with
`iVarBegin = iVarCurrent = 0` unchanged, so the loop state repeats forever.
No amount of fuel makes the embedded loop reach its exit. -/
theorem parseVariableList_comma_diverges (fuel : ℕ) :
    parseVariableList [ ','] fuel = none := by
  unfold parseVariableList
  induction fuel with
  | zero => rfl
  | succ n ih =>
      have h : parseRun [ ','] (n + 1) ⟨0, 0, []⟩ = parseRun [ ','] n ⟨0, 0, []⟩ := rfl
      rw [h]
      exact ih

/-! ## Embedding of the overlap-mesh orientation check (src/gecore2.cpp:230-251) -/

/-- The scan computing `ixFirstFaceMax` (src lines 231-236): the running
maximum of `vecFirstFaceIx[i] + 1`, starting from -1. -/
def ixFirstFaceMax (l : List ℤ) : ℤ :=
  l.foldl (fun m x => if x + 1 > m then x + 1 else m) (-1)

/-- Outcome of the correspondence check (src lines 238-251). -/
inductive OverlapOrder where
  | primary
  | reversed
  | invalid
deriving DecidableEq

/-- The branch structure at src lines 238-251: primary correspondence when
`ixFirstFaceMax` matches the input face count, reversed when it matches the
output face count, otherwise the invalid-overlap-mesh exception. -/
def checkOverlapOrder (l : List ℤ) (nIn nOut : ℕ) : OverlapOrder :=
  if ixFirstFaceMax l = (nIn : ℤ) then .primary
  else if ixFirstFaceMax l = (nOut : ℤ) then .reversed
  else .invalid

/-- Modelled from the spec: `Mesh::ExchangeFirstAndSecondMesh` (called at
src/gecore2.cpp:245) is not under src/; per the spec (§3 and the
`OverlapOrientationInverted` row of §7) it swaps the two provenance arrays.
`none` models the `_EXCEPTION1("Invalid overlap mesh ...")` abort at
src lines 248-250. -/
def normalizeOverlap (first second : List ℤ) (nIn nOut : ℕ) :
    Option (List ℤ × List ℤ) :=
  match checkOverlapOrder first nIn nOut with
  | .primary => some (first, second)
  | .reversed => some (second, first)
  | .invalid => none

lemma maxStep (m x : ℤ) : (if x + 1 > m then x + 1 else m) = max m (x + 1) := by
  rcases le_or_lt (x + 1) m with h | h
  · rw [if_neg (not_lt.mpr h), max_eq_left h]
  · rw [if_pos h, max_eq_right h.le]

lemma foldl_max_inv (l : List ℤ) : ∀ a : ℤ,
    (l.foldl (fun m x => if x + 1 > m then x + 1 else m) a = a
        ∨ (l.foldl (fun m x => if x + 1 > m then x + 1 else m) a) - 1 ∈ l)
      ∧ a ≤ l.foldl (fun m x => if x + 1 > m then x + 1 else m) a
      ∧ ∀ x ∈ l, x + 1 ≤ l.foldl (fun m x => if x + 1 > m then x + 1 else m) a := by
  induction l with
  | nil =>
      intro a
      exact ⟨Or.inl rfl, le_rfl, by simp⟩
  | cons y ys ih =>
      intro a
      rw [List.foldl_cons]
      obtain ⟨h1, h2, h3⟩ := ih (if y + 1 > a then y + 1 else a)
      have hstep : a ≤ (if y + 1 > a then y + 1 else a) := by
        rw [maxStep]; exact le_max_left _ _
      have hy : y + 1 ≤ (if y + 1 > a then y + 1 else a) := by
        rw [maxStep]; exact le_max_right _ _
      refine ⟨?_, le_trans hstep h2, ?_⟩
      · rcases h1 with h | h
        · rw [h, maxStep]
          rcases max_choice a (y + 1) with hm | hm
          · exact Or.inl hm
          · refine Or.inr ?_
            rw [hm]
            simp
        · exact Or.inr (List.mem_cons_of_mem y h)
      · intro x hx
        rcases List.mem_cons.mp hx with hxy | hxys
        · subst hxy
          exact le_trans hy h2
        · exact h3 x hxys

/-- C9.  The driver computes `ixFirstFaceMax` as one plus the maximum of
`vecFirstFaceIx` (for a nonempty overlap mesh with nonnegative indices:
`ixFirstFaceMax - 1` is an element and dominates all elements); then the
provenance arrays are kept as-is when it equals the input face count, swapped
when it instead equals the output face count, and the run is aborted
otherwise. -/
theorem overlap_orientation_check (first second : List ℤ) (nIn nOut : ℕ)
    (hne : first ≠ []) (hnn : ∀ x ∈ first, 0 ≤ x) :
    (ixFirstFaceMax first - 1 ∈ first
        ∧ ∀ x ∈ first, x ≤ ixFirstFaceMax first - 1)
      ∧ normalizeOverlap first second nIn nOut
          = (if ixFirstFaceMax first = (nIn : ℤ) then some (first, second)
             else if ixFirstFaceMax first = (nOut : ℤ) then some (second, first)
             else none) := by
  obtain ⟨h1, h2, h3⟩ := foldl_max_inv first (-1)
  have hfold : ixFirstFaceMax first
      = first.foldl (fun m x => if x + 1 > m then x + 1 else m) (-1) := rfl
  constructor
  · constructor
    · rcases h1 with h | h
      · exfalso
        obtain ⟨x, hx⟩ := List.exists_mem_of_ne_nil first hne
        have hb := h3 x hx
        have hn := hnn x hx
        rw [h] at hb
        omega
      · rw [hfold]
        exact h
    · intro x hx
      have hb := h3 x hx
      rw [hfold]
      omega
  · by_cases hin : ixFirstFaceMax first = (nIn : ℤ)
    · simp [normalizeOverlap, checkOverlapOrder, hin]
    · by_cases hout : ixFirstFaceMax first = (nOut : ℤ)
      · have hneq : nOut ≠ nIn := by
          intro hEq
          exact hin (by rw [hout, hEq])
        simp [normalizeOverlap, checkOverlapOrder, hin, hout, hneq]
      · simp [normalizeOverlap, checkOverlapOrder, hin, hout]

theorem overlap_orientation_check_witness :
    (([0, 1] : List ℤ) ≠ [])
      ∧ normalizeOverlap ([0, 1] : List ℤ) ([5, 6] : List ℤ) 2 3
          = some (([0, 1] : List ℤ), ([5, 6] : List ℤ)) := by
  have h := overlap_orientation_check ([0, 1] : List ℤ) ([5, 6] : List ℤ) 2 3
    (by simp) (by intro x hx; fin_cases hx <;> norm_num)
  refine ⟨by simp, ?_⟩
  rw [h.2]
  norm_num [ixFirstFaceMax]

/-! ## Embedding of LinearRemapSE4 (src/LinearRemapSE0.cpp:739-983)

The geometric kernels invoked by the quadrature loop — the triangular
quadrature rule (`TriangularQuadratureRule(4)`), the spherical triangle area
(`CalculateFaceArea`), the barycentric blend renormalized to the sphere
followed by `ApplyInverseMap`, and the GLL basis sampler
(`SampleGLLFiniteElement`) — live outside src/.  Modelled from the spec
(§4.1-§4.3): they are pure functions of their inputs and are carried as
abstract function fields of the run data below; `invMap e o k l` is the pair
`(dAlpha, dBeta)` produced for quadrature point `l` of fan sub-triangle `k`
(on vertex 0) of overlap face `o` against source face `e`, and
`sample fMonotone α β p q` is `dSampleCoeff[p][q]`. -/

structure SE4Data where
  nP : ℕ
  nInputFaces : ℕ
  inputEdges : ℕ → ℕ
  inputArea : ℕ → ℚ
  nOverlapTotal : ℕ
  overlapFirst : ℕ → ℕ
  overlapSecond : ℕ → ℕ
  overlapEdges : ℕ → ℕ
  overlapArea : ℕ → ℚ
  outputArea : ℕ → ℚ
  gllNodes : ℕ → ℕ → ℕ → ℤ
  gllJacobian : ℕ → ℕ → ℕ → ℚ
  nTQ : ℕ
  tqW : ℕ → ℚ
  triArea : ℕ → ℕ → ℚ
  invMap : ℕ → ℕ → ℕ → ℕ → ℚ × ℚ
  sample : Bool → ℚ → ℚ → ℕ → ℕ → ℚ
  monotone : Bool

/-- The exceptions a `LinearRemapSE4` run can raise: the quadrilateral check
(src line 793), the inverse-map range check (src lines 891-896), and the SPD
Schur solve failure (src line 666). -/
inductive RemapError where
  | unsupportedElement
  | inverseMapOutOfRange (a b : ℚ)
  | schurSolveFailed
deriving DecidableEq

/-- The out-of-range condition tested at src lines 891-893: the source
compares `dAlpha`/`dBeta` against 0 and 1 with no tolerance. -/
def outOfRange01 (ab : ℚ × ℚ) : Prop :=
  ab.1 < 0 ∨ 1 < ab.1 ∨ ab.2 < 0 ∨ 1 < ab.2

instance (ab : ℚ × ℚ) : Decidable (outOfRange01 ab) := by
  unfold outOfRange01
  infer_instance

/-- The iteration space of the quadrature loop for one source element
(src lines 829-917): overlap face slot `j < n`, fan sub-triangle
`k < nEdges - 2`, quadrature point `l < nTQ`, in source iteration order. -/
def elemTriples (d : SE4Data) (ix n : ℕ) : List (ℕ × ℕ × ℕ) :=
  (List.range n).flatMap fun j =>
    (List.range (d.overlapEdges (ix + j) - 2)).flatMap fun k =>
      (List.range d.nTQ).map fun l => (j, k, l)

/-- One quadrature sample's contribution to `dRemapCoeff[p][q][j]`
(src lines 906-915): `w_l * A_tri * S[p][q] / overlapFaceArea[ix + j]`. -/
def pointContrib (d : SE4Data) (e ix : ℕ) (t : ℕ × ℕ × ℕ) (p q : ℕ) : ℚ :=
  d.tqW t.2.2 * d.triArea (ix + t.1) t.2.1
    * d.sample d.monotone (d.invMap e (ix + t.1) t.2.1 t.2.2).1
        (d.invMap e (ix + t.1) t.2.1 t.2.2).2 p q
    / d.overlapArea (ix + t.1)

/-- The quadrature accumulation loop (src lines 829-917) over an explicit
list of `(j, k, l)` triples; the inverse-map range check (src lines 891-896)
aborts the run with the offending, unclamped `(dAlpha, dBeta)` pair. -/
def quadLoop (d : SE4Data) (e ix : ℕ) :
    List (ℕ × ℕ × ℕ) → Except RemapError (ℕ → ℕ → ℕ → ℚ)
  | [] => .ok fun _ _ _ => 0
  | t :: ts =>
    if outOfRange01 (d.invMap e (ix + t.1) t.2.1 t.2.2) then
      .error (.inverseMapOutOfRange (d.invMap e (ix + t.1) t.2.1 t.2.2).1
        (d.invMap e (ix + t.1) t.2.1 t.2.2).2)
    else
      match quadLoop d e ix ts with
      | .error err => .error err
      | .ok rest => .ok fun p q j =>
          (if t.1 = j then pointContrib d e ix t p q else 0) + rest p q j

/-- The raw `dRemapCoeff` tensor for source face `e` whose overlap run starts
at `ix` and has length `n` (src lines 824-917). -/
def rawCoeff (d : SE4Data) (e ix n : ℕ) : Except RemapError (ℕ → ℕ → ℕ → ℚ) :=
  quadLoop d e ix (elemTriples d ix n)

lemma mem_elemTriples (d : SE4Data) (ix n : ℕ) (t : ℕ × ℕ × ℕ) :
    t ∈ elemTriples d ix n
      ↔ t.1 < n ∧ t.2.1 < d.overlapEdges (ix + t.1) - 2 ∧ t.2.2 < d.nTQ := by
  obtain ⟨j, k, l⟩ := t
  unfold elemTriples
  simp only [List.mem_flatMap, List.mem_map, List.mem_range]
  constructor
  · rintro ⟨j2, hj2, k2, hk2, l2, hl2, heq⟩
    injection heq with h1 h23
    injection h23 with h2 h3
    subst h1; subst h2; subst h3
    exact ⟨hj2, hk2, hl2⟩
  · rintro ⟨h1, h2, h3⟩
    exact ⟨j, h1, k, h2, l, h3, rfl⟩

/-- When no quadrature point is rejected by the range check, the loop
accumulates exactly the sum of its samples. -/
lemma quadLoop_ok (d : SE4Data) (e ix : ℕ) (ts : List (ℕ × ℕ × ℕ))
    (h : ∀ t ∈ ts, ¬ outOfRange01 (d.invMap e (ix + t.1) t.2.1 t.2.2)) :
    quadLoop d e ix ts
      = .ok fun p q j =>
          (ts.map fun t => if t.1 = j then pointContrib d e ix t p q else 0).sum := by
  induction ts with
  | nil => rfl
  | cons t ts ih =>
      have hts : ∀ x ∈ ts, ¬ outOfRange01 (d.invMap e (ix + x.1) x.2.1 x.2.2) :=
        fun x hx => h x (List.mem_cons_of_mem t hx)
      simp only [quadLoop]
      rw [if_neg (h t (List.mem_cons_self t ts)), ih hts]
      rfl

/-- Conversely, a successful loop certifies that no point was out of range
and identifies the accumulated coefficients. -/
lemma quadLoop_ok_inv (d : SE4Data) (e ix : ℕ) (ts : List (ℕ × ℕ × ℕ)) :
    ∀ g, quadLoop d e ix ts = .ok g →
    (∀ t ∈ ts, ¬ outOfRange01 (d.invMap e (ix + t.1) t.2.1 t.2.2))
      ∧ g = fun p q j =>
          (ts.map fun t => if t.1 = j then pointContrib d e ix t p q else 0).sum := by
  induction ts with
  | nil =>
      intro g h
      refine ⟨by simp, ?_⟩
      rw [← Except.ok.inj h]
      rfl
  | cons t ts ih =>
      intro g h
      simp only [quadLoop] at h
      by_cases hs : outOfRange01 (d.invMap e (ix + t.1) t.2.1 t.2.2)
      · rw [if_pos hs] at h
        exact absurd h (by simp)
      · rw [if_neg hs] at h
        cases hq : quadLoop d e ix ts with
        | error e2 =>
            rw [hq] at h
            exact absurd h (by simp)
        | ok g2 =>
            rw [hq] at h
            obtain ⟨hall, hg2⟩ := ih g2 hq
            have hg : g = fun p q j =>
                (if t.1 = j then pointContrib d e ix t p q else 0) + g2 p q j :=
              (Except.ok.inj h).symm
            refine ⟨?_, ?_⟩
            · intro x hx
              rcases List.mem_cons.mp hx with rfl | hmem
              · exact hs
              · exact hall x hmem
            · rw [hg, hg2]
              funext p q j
              simp

/-- A failed loop names an out-of-range point and is always the inverse-map
error. -/
lemma quadLoop_error (d : SE4Data) (e ix : ℕ) (ts : List (ℕ × ℕ × ℕ)) :
    ∀ err, quadLoop d e ix ts = .error err →
    (∃ t ∈ ts, outOfRange01 (d.invMap e (ix + t.1) t.2.1 t.2.2))
      ∧ ∃ a b, err = .inverseMapOutOfRange a b := by
  induction ts with
  | nil =>
      intro err h
      exact absurd h (by simp [quadLoop])
  | cons t ts ih =>
      intro err h
      simp only [quadLoop] at h
      by_cases hoo : outOfRange01 (d.invMap e (ix + t.1) t.2.1 t.2.2)
      · rw [if_pos hoo] at h
        have herr := (Except.error.inj h).symm
        exact ⟨⟨t, List.mem_cons_self t ts, hoo⟩, _, _, herr⟩
      · rw [if_neg hoo] at h
        cases hq : quadLoop d e ix ts with
        | error e2 =>
            rw [hq] at h
            obtain ⟨⟨t2, ht2, hoo2⟩, hkind⟩ := ih e2 hq
            have herr : e2 = err := Except.error.inj h
            exact ⟨⟨t2, List.mem_cons_of_mem t ht2, hoo2⟩, herr ▸ hkind⟩
        | ok g =>
            rw [hq] at h
            exact absurd h (by simp)

/-- Any out-of-range point makes the loop fail with the inverse-map error. -/
lemma quadLoop_error_of_bad (d : SE4Data) (e ix : ℕ) (ts : List (ℕ × ℕ × ℕ))
    (h : ∃ t ∈ ts, outOfRange01 (d.invMap e (ix + t.1) t.2.1 t.2.2)) :
    ∃ a b, quadLoop d e ix ts = .error (.inverseMapOutOfRange a b) := by
  induction ts with
  | nil => simp at h
  | cons t ts ih =>
      simp only [quadLoop]
      by_cases hoo : outOfRange01 (d.invMap e (ix + t.1) t.2.1 t.2.2)
      · rw [if_pos hoo]
        exact ⟨_, _, rfl⟩
      · rw [if_neg hoo]
        obtain ⟨t2, ht2, hoo2⟩ := h
        rcases List.mem_cons.mp ht2 with rfl | hmem
        · exact absurd hoo2 hoo
        · obtain ⟨a, b, hq⟩ := ih ⟨t2, hmem, hoo2⟩
          rw [hq]
          exact ⟨a, b, rfl⟩

lemma sum_map_range (f : ℕ → ℚ) (n : ℕ) :
    ((List.range n).map f).sum = ∑ l in range n, f l := by
  induction n with
  | zero => rfl
  | succ m ih =>
      rw [List.range_succ, List.map_append, List.sum_append,
        Finset.sum_range_succ, ih]
      simp

lemma sum_map_bind_range (B : ℕ → List (ℕ × ℕ × ℕ)) (f : ℕ × ℕ × ℕ → ℚ)
    (n : ℕ) :
    (((List.range n).flatMap B).map f).sum = ∑ j in range n, ((B j).map f).sum := by
  induction n with
  | zero => rfl
  | succ m ih =>
      rw [List.range_succ, List.flatMap_append, List.map_append, List.sum_append,
        Finset.sum_range_succ, ih]
      simp

/-- C5.  In `LinearRemapSE4`, for every source face `e`, every attached
overlap face `j` is fan-triangulated on vertex 0 into `nEdges - 2`
sub-triangles, and the raw accumulator produces exactly
`dRemapCoeff[p][q][j] = ∑_k ∑_l  w_l * A_tri(j,k) * S[p][q](α,β) /
overlapFaceArea[j]`, with `(α, β)` the inverse-mapped renormalized barycentric
quadrature node. -/
theorem rawCoeff_quadrature_sum (d : SE4Data) (e ix n : ℕ)
    (g : ℕ → ℕ → ℕ → ℚ) (h : rawCoeff d e ix n = .ok g) {j : ℕ} (hj : j < n)
    (p q : ℕ) :
    g p q j
      = ∑ k in range (d.overlapEdges (ix + j) - 2), ∑ l in range d.nTQ,
          d.tqW l * d.triArea (ix + j) k
            * d.sample d.monotone (d.invMap e (ix + j) k l).1
                (d.invMap e (ix + j) k l).2 p q
            / d.overlapArea (ix + j) := by
  obtain ⟨_, hg⟩ := quadLoop_ok_inv d e ix (elemTriples d ix n) g h
  have hgp : g p q j
      = ((elemTriples d ix n).map
          fun t => if t.1 = j then pointContrib d e ix t p q else 0).sum := by
    rw [hg]
  rw [hgp]
  unfold elemTriples
  rw [sum_map_bind_range]
  have hinner : ∀ j2 ∈ range n,
      (((List.range (d.overlapEdges (ix + j2) - 2)).flatMap fun k =>
          (List.range d.nTQ).map fun l => (j2, k, l)).map
        fun t => if t.1 = j then pointContrib d e ix t p q else 0).sum
      = if j2 = j then
          ∑ k in range (d.overlapEdges (ix + j2) - 2), ∑ l in range d.nTQ,
            pointContrib d e ix (j2, k, l) p q
        else 0 := by
    intro j2 _
    rw [sum_map_bind_range]
    by_cases hjj : j2 = j
    · rw [if_pos hjj]
      refine Finset.sum_congr rfl fun k _ => ?_
      rw [List.map_map, sum_map_range]
      refine Finset.sum_congr rfl fun l _ => ?_
      simp [Function.comp, hjj]
    · rw [if_neg hjj]
      refine Finset.sum_eq_zero fun k _ => ?_
      rw [List.map_map, sum_map_range]
      refine Finset.sum_eq_zero fun l _ => ?_
      simp [Function.comp, hjj]
  rw [Finset.sum_congr rfl hinner,
    Finset.sum_ite_eq' (range n) j
      (fun j2 => ∑ k in range (d.overlapEdges (ix + j2) - 2),
        ∑ l in range d.nTQ, pointContrib d e ix (j2, k, l) p q),
    if_pos (mem_range.mpr hj)]
  rfl

/-! ### The per-element correction step and the outer element loop -/

/-- `dCoeff[j][p * nP + q] = dRemapCoeff[p][q][j]` (src lines 942-948). -/
def flattenCoeff (nP : ℕ) (raw : ℕ → ℕ → ℕ → ℚ) : ℕ → ℕ → ℚ :=
  fun j s => raw (s / nP) (s % nP) j

/-- `dRemapCoeff[p][q][j] = dCoeff[j][p * nP + q]` (src lines 956-962). -/
def unflattenCoeff (nP : ℕ) (C : ℕ → ℕ → ℚ) : ℕ → ℕ → ℕ → ℚ :=
  fun p q j => C j (p * nP + q)

/-- `vecSourceArea[p * nP + q] = dataGLLJacobian[p][q][ixFirst]`
(src lines 921-927). -/
def elemASrc (d : SE4Data) (e : ℕ) : ℕ → ℚ :=
  fun s => d.gllJacobian (s / d.nP) (s % d.nP) e

/-- `vecTargetArea[j] = meshOverlap.vecFaceArea[ixOverlap + j]`
(src lines 930-934). -/
def elemATgt (d : SE4Data) (ix : ℕ) : ℕ → ℚ :=
  fun j => d.overlapArea (ix + j)

/-- `dTargetArea - meshInput.vecFaceArea[ixFirst]` (src line 936). -/
def coverageGap (d : SE4Data) (e ix n : ℕ) : ℚ :=
  (∑ j in range n, d.overlapArea (ix + j)) - d.inputArea e

/-- The corrector invocation on the flattened matrix (src lines 940-962):
`ForceConsistencyConservation3` on `dCoeff[nOverlapFaces][nP * nP]`, failure
of the SPD solve aborting the run. -/
def applyCorrector (d : SE4Data) (e ix n : ℕ) (raw : ℕ → ℕ → ℕ → ℚ) :
    Except RemapError (ℕ → ℕ → ℕ → ℚ) :=
  match fcc3 n (d.nP * d.nP) (elemASrc d e) (elemATgt d ix)
      (flattenCoeff d.nP raw) d.monotone with
  | none => .error .schurSolveFailed
  | some C2 => .ok (unflattenCoeff d.nP C2)

/-- The coefficients a source element contributes to the sparse map, together
with the partial-element flag (src lines 920-963): when
`|dTargetArea - inputFaceArea| > 1e-10` the source only logs
"Partial element" and keeps the raw coefficients; otherwise it runs the
corrector on the flattened matrix. -/
def correctedCoeff (d : SE4Data) (e ix n : ℕ) :
    Except RemapError ((ℕ → ℕ → ℕ → ℚ) × Bool) :=
  (rawCoeff d e ix n).bind fun raw =>
    if 1 / 10 ^ 10 < |coverageGap d e ix n| then .ok (raw, true)
    else (applyCorrector d e ix n raw).map fun c => (c, false)

/-- The additive contribution of one source element to the sparse matrix
(src lines 965-978): for each overlap face `j` and basis index `(p, q)`,
`W[secondFace(ix+j)][GLLNodes[p][q][e] - 1] += coeff[p][q][j] *
overlapArea(ix+j) / outputArea(secondFace(ix+j))`. -/
def elemContrib (d : SE4Data) (e ix n : ℕ) (coeff : ℕ → ℕ → ℕ → ℚ) :
    ℕ → ℤ → ℚ :=
  fun r c =>
    ∑ j in range n, ∑ p in range d.nP, ∑ q in range d.nP,
      if d.overlapSecond (ix + j) = r ∧ d.gllNodes p q e - 1 = c then
        coeff p q j * d.overlapArea (ix + j)
          / d.outputArea (d.overlapSecond (ix + j))
      else 0

/-- Fuel-indexed version of the forward scan at src lines 806-817 counting the
contiguous overlap faces whose `vecFirstFaceIx` equals the current source
face. -/
def scanCountFuel (first : ℕ → ℕ) (total e : ℕ) : ℕ → ℕ → ℕ
  | 0, _ => 0
  | fuel + 1, ix =>
      if ix < total ∧ first ix = e then
        scanCountFuel first total e fuel (ix + 1) + 1
      else 0

/-- `nOverlapFaces` for the source face `e` when the scan starts at `ix`
(src lines 806-817); `total - ix` fuel always suffices because the scan
advances one overlap face per step. -/
def scanCount (first : ℕ → ℕ) (total e ix : ℕ) : ℕ :=
  scanCountFuel first total e (total - ix) ix

/-- Processing of one source face (the body of the loop at src lines
788-982): the quadrilateral check (src lines 792-794), the zero-overlap skip
(src lines 820-822), then quadrature, correction and the sparse-matrix fold.
The returned flag records whether "Partial element" was logged. -/
def elemStep (d : SE4Data) (e ix : ℕ) :
    Except RemapError ((ℕ → ℤ → ℚ) × Bool) :=
  if d.inputEdges e ≠ 4 then .error .unsupportedElement
  else if scanCount d.overlapFirst d.nOverlapTotal e ix = 0 then
    .ok (fun _ _ => 0, false)
  else
    (correctedCoeff d e ix (scanCount d.overlapFirst d.nOverlapTotal e ix)).map
      fun w => (elemContrib d e ix (scanCount d.overlapFirst d.nOverlapTotal e ix) w.1, w.2)

/-- `ixOverlap` at the start of the iteration for source face `e`
(src lines 785 and 981). -/
def elemOffset (d : SE4Data) : ℕ → ℕ
  | 0 => 0
  | e + 1 => elemOffset d e
      + scanCount d.overlapFirst d.nOverlapTotal e (elemOffset d e)

/-- The number of overlap faces attached to source face `e` in its actual
iteration. -/
def elemCount (d : SE4Data) (e : ℕ) : ℕ :=
  scanCount d.overlapFirst d.nOverlapTotal e (elemOffset d e)

/-- The element step at its actual offset. -/
def stepAt (d : SE4Data) (e : ℕ) : Except RemapError ((ℕ → ℤ → ℚ) × Bool) :=
  elemStep d e (elemOffset d e)

/-- The remaining element loop: `m` faces starting at face `e` with overlap
offset `ix`, accumulating the sparse matrix and the list of partial-element
log lines. -/
def runAux (d : SE4Data) : ℕ → ℕ → ℕ → Except RemapError ((ℕ → ℤ → ℚ) × List ℕ)
  | 0, _, _ => .ok (fun _ _ => 0, [])
  | m + 1, e, ix =>
      match elemStep d e ix with
      | .error err => .error err
      | .ok w =>
          match runAux d m (e + 1)
              (ix + scanCount d.overlapFirst d.nOverlapTotal e ix) with
          | .error err => .error err
          | .ok rest =>
              .ok (fun r c => w.1 r c + rest.1 r c,
                (if w.2 then [e] else []) ++ rest.2)

/-- Embedding of `LinearRemapSE4` (src lines 739-983): iterate all source
faces from overlap offset 0. -/
def runSE4 (d : SE4Data) : Except RemapError ((ℕ → ℤ → ℚ) × List ℕ) :=
  runAux d d.nInputFaces 0 0

/-! ### Error analysis of the element loop -/

lemma runAux_error_iff (d : SE4Data) (m : ℕ) :
    ∀ e err, runAux d m e (elemOffset d e) = .error err
      ↔ ∃ i < m, stepAt d (e + i) = .error err
          ∧ ∀ i2 < i, ∃ w, stepAt d (e + i2) = .ok w := by
  induction m with
  | zero =>
      intro e err
      constructor
      · intro h
        exact absurd h (by simp [runAux])
      · rintro ⟨i, hi, _⟩
        omega
  | succ m ih =>
      intro e err
      have hoff : elemOffset d e
          + scanCount d.overlapFirst d.nOverlapTotal e (elemOffset d e)
          = elemOffset d (e + 1) := rfl
      constructor
      · intro h
        simp only [runAux] at h
        rw [show elemStep d e (elemOffset d e) = stepAt d e from rfl] at h
        cases hs : stepAt d e with
        | error e2 =>
            rw [hs] at h
            have he2 : e2 = err := Except.error.inj h
            refine ⟨0, Nat.succ_pos m, ?_, fun i2 h2 => absurd h2 (Nat.not_lt_zero i2)⟩
            rw [Nat.add_zero, hs, he2]
        | ok w =>
            rw [hs, hoff] at h
            cases hr : runAux d m (e + 1) (elemOffset d (e + 1)) with
            | error e2 =>
                rw [hr] at h
                have he2 : e2 = err := Except.error.inj h
                obtain ⟨i, hi, hstep, hprev⟩ := (ih (e + 1) err).mp (he2 ▸ hr)
                refine ⟨i + 1, Nat.succ_lt_succ hi, ?_, ?_⟩
                · have hsh : e + 1 + i = e + (i + 1) := by omega
                  rw [← hsh]
                  exact hstep
                · intro i2 h2
                  cases i2 with
                  | zero =>
                      refine ⟨w, ?_⟩
                      rw [Nat.add_zero]
                      exact hs
                  | succ i3 =>
                      obtain ⟨w2, hw2⟩ := hprev i3 (by omega)
                      refine ⟨w2, ?_⟩
                      have hsh : e + (i3 + 1) = e + 1 + i3 := by omega
                      rw [hsh]
                      exact hw2
            | ok rest =>
                rw [hr] at h
                exact absurd h (by simp)
      · rintro ⟨i, hi, hstep, hprev⟩
        simp only [runAux]
        rw [show elemStep d e (elemOffset d e) = stepAt d e from rfl]
        cases i with
        | zero =>
            rw [Nat.add_zero] at hstep
            rw [hstep]
        | succ i3 =>
            obtain ⟨w, hw⟩ := hprev 0 (Nat.succ_pos i3)
            rw [Nat.add_zero] at hw
            rw [hw, hoff]
            have hrec : runAux d m (e + 1) (elemOffset d (e + 1)) = .error err := by
              apply (ih (e + 1) err).mpr
              refine ⟨i3, by omega, ?_, ?_⟩
              · have hsh : e + 1 + i3 = e + (i3 + 1) := by omega
                rw [hsh]
                exact hstep
              · intro i2 h2
                obtain ⟨w2, hw2⟩ := hprev (i2 + 1) (by omega)
                refine ⟨w2, ?_⟩
                have hsh : e + 1 + i2 = e + (i2 + 1) := by omega
                rw [hsh]
                exact hw2
            rw [hrec]
  
lemma runSE4_error_iff (d : SE4Data) (err : RemapError) :
    runSE4 d = .error err
      ↔ ∃ i < d.nInputFaces, stepAt d i = .error err
          ∧ ∀ i2 < i, ∃ w, stepAt d i2 = .ok w := by
  have h := runAux_error_iff d d.nInputFaces 0 err
  simpa [runSE4, elemOffset] using h

lemma applyCorrector_error (d : SE4Data) (e ix n : ℕ) (raw : ℕ → ℕ → ℕ → ℚ)
    (err : RemapError) (h : applyCorrector d e ix n raw = .error err) :
    err = .schurSolveFailed := by
  unfold applyCorrector at h
  cases hf : fcc3 n (d.nP * d.nP) (elemASrc d e) (elemATgt d ix)
      (flattenCoeff d.nP raw) d.monotone with
  | none =>
      rw [hf] at h
      exact (Except.error.inj h).symm
  | some C2 =>
      rw [hf] at h
      exact absurd h (by simp)

lemma correctedCoeff_error (d : SE4Data) (e ix n : ℕ) (err : RemapError)
    (h : correctedCoeff d e ix n = .error err) :
    (rawCoeff d e ix n = .error err
        ∧ ∃ a b, err = .inverseMapOutOfRange a b)
      ∨ err = .schurSolveFailed := by
  unfold correctedCoeff at h
  cases hr : rawCoeff d e ix n with
  | error e2 =>
      rw [hr] at h
      simp only [Except.bind] at h
      have he2 : e2 = err := Except.error.inj h
      subst he2
      obtain ⟨_, hkind⟩ := quadLoop_error d e ix (elemTriples d ix n) e2 hr
      exact Or.inl ⟨rfl, hkind⟩

  | ok raw =>
      rw [hr] at h
      simp only [Except.bind] at h
      by_cases hgap : 1 / 10 ^ 10 < |coverageGap d e ix n|
      · rw [if_pos hgap] at h
        exact absurd h (by simp)
      · rw [if_neg hgap] at h
        cases ha : applyCorrector d e ix n raw with
        | error e2 =>
            rw [ha] at h
            simp only [Except.map] at h
            have he2 : e2 = err := Except.error.inj h
            exact Or.inr (he2 ▸ applyCorrector_error d e ix n raw e2 ha)
        | ok c =>
            rw [ha] at h
            simp only [Except.map] at h
            exact absurd h (by simp)

lemma elemStep_error_unsupported (d : SE4Data) (e ix : ℕ) :
    elemStep d e ix = .error .unsupportedElement ↔ d.inputEdges e ≠ 4 := by
  constructor
  · intro h
    by_contra hcon
    have h4 : d.inputEdges e = 4 := by omega
    unfold elemStep at h
    rw [if_neg (by simp [h4])] at h
    by_cases hn : scanCount d.overlapFirst d.nOverlapTotal e ix = 0
    · rw [if_pos hn] at h
      exact absurd h (by simp)
    · rw [if_neg hn] at h
      cases hc : correctedCoeff d e ix
          (scanCount d.overlapFirst d.nOverlapTotal e ix) with
      | error e2 =>
          rw [hc] at h
          simp only [Except.map] at h
          have he2 : e2 = .unsupportedElement := Except.error.inj h
          subst he2
          rcases correctedCoeff_error d e ix _ _ hc with ⟨_, a, b, hk⟩ | hk
          · exact absurd hk (by simp)
          · exact absurd hk (by simp)
      | ok w =>
          rw [hc] at h
          simp only [Except.map] at h
          exact absurd h (by simp)
  · intro h4
    unfold elemStep
    rw [if_pos h4]

lemma elemStep_invmap_of_bad (d : SE4Data) (e ix : ℕ)
    (h4 : d.inputEdges e = 4)
    (hbad : ∃ t ∈ elemTriples d ix
        (scanCount d.overlapFirst d.nOverlapTotal e ix),
      outOfRange01 (d.invMap e (ix + t.1) t.2.1 t.2.2)) :
    ∃ a b, elemStep d e ix = .error (.inverseMapOutOfRange a b) := by
  obtain ⟨a, b, hq⟩ := quadLoop_error_of_bad d e ix _ hbad
  have hn : scanCount d.overlapFirst d.nOverlapTotal e ix ≠ 0 := by
    intro h0
    rw [h0] at hbad
    obtain ⟨t, ht, _⟩ := hbad
    simp [elemTriples] at ht
  refine ⟨a, b, ?_⟩
  unfold elemStep
  rw [if_neg (by simp [h4]), if_neg hn]
  unfold correctedCoeff rawCoeff
  rw [hq]
  rfl

lemma elemStep_invmap_bad (d : SE4Data) (e ix : ℕ) (a b : ℚ)
    (h : elemStep d e ix = .error (.inverseMapOutOfRange a b)) :
    ∃ t ∈ elemTriples d ix (scanCount d.overlapFirst d.nOverlapTotal e ix),
      outOfRange01 (d.invMap e (ix + t.1) t.2.1 t.2.2) := by
  unfold elemStep at h
  by_cases h4 : d.inputEdges e ≠ 4
  · rw [if_pos h4] at h
    exact absurd (Except.error.inj h) (by simp)
  · rw [if_neg h4] at h
    by_cases hn : scanCount d.overlapFirst d.nOverlapTotal e ix = 0
    · rw [if_pos hn] at h
      exact absurd h (by simp)
    · rw [if_neg hn] at h
      cases hc : correctedCoeff d e ix
          (scanCount d.overlapFirst d.nOverlapTotal e ix) with
      | ok w =>
          rw [hc] at h
          simp only [Except.map] at h
          exact absurd h (by simp)
      | error e2 =>
          rw [hc] at h
          simp only [Except.map] at h
          have he2 : e2 = .inverseMapOutOfRange a b := Except.error.inj h
          subst he2
          rcases correctedCoeff_error d e ix _ _ hc with ⟨hraw, _⟩ | hk
          · exact (quadLoop_error d e ix _ _ hraw).1
          · exact absurd hk (by simp)

lemma elemStep_error_cases (d : SE4Data) (e ix : ℕ) (err : RemapError)
    (h : elemStep d e ix = .error err) :
    err = .unsupportedElement ∨ (∃ a b, err = .inverseMapOutOfRange a b)
      ∨ err = .schurSolveFailed := by
  unfold elemStep at h
  by_cases h4 : d.inputEdges e ≠ 4
  · rw [if_pos h4] at h
    exact Or.inl (Except.error.inj h).symm
  · rw [if_neg h4] at h
    by_cases hn : scanCount d.overlapFirst d.nOverlapTotal e ix = 0
    · rw [if_pos hn] at h
      exact absurd h (by simp)
    · rw [if_neg hn] at h
      cases hc : correctedCoeff d e ix
          (scanCount d.overlapFirst d.nOverlapTotal e ix) with
      | ok w =>
          rw [hc] at h
          simp only [Except.map] at h
          exact absurd h (by simp)
      | error e2 =>
          rw [hc] at h
          simp only [Except.map] at h
          have he2 : e2 = err := Except.error.inj h
          subst he2
          rcases correctedCoeff_error d e ix _ e2 hc with ⟨_, a, b, hk⟩ | hk
          · exact Or.inr (Or.inl ⟨a, b, hk⟩)
          · exact Or.inr (Or.inr hk)

/-- Internal form of the inverse-map error characterization: under the side
conditions that every source face is a quadrilateral and no Schur solve
fails, the run raises `InverseMapOutOfRange` exactly when some visited
quadrature point inverse-maps strictly outside the unit square. -/
lemma run_invmap_iff (d : SE4Data)
    (hq : ∀ e < d.nInputFaces, d.inputEdges e = 4)
    (hs : ∀ e < d.nInputFaces, stepAt d e ≠ .error .schurSolveFailed) :
    (∃ a b, runSE4 d = .error (.inverseMapOutOfRange a b))
      ↔ ∃ e < d.nInputFaces, ∃ j < elemCount d e,
          ∃ k < d.overlapEdges (elemOffset d e + j) - 2, ∃ l < d.nTQ,
            outOfRange01 (d.invMap e (elemOffset d e + j) k l) := by
  constructor
  · rintro ⟨a, b, h⟩
    obtain ⟨i, hi, hstep, _⟩ := (runSE4_error_iff d _).mp h
    obtain ⟨t, ht, hoo⟩ := elemStep_invmap_bad d i (elemOffset d i) a b hstep
    obtain ⟨h1, h2, h3⟩ := (mem_elemTriples d (elemOffset d i) _ t).mp ht
    exact ⟨i, hi, t.1, h1, t.2.1, h2, t.2.2, h3, hoo⟩
  · rintro ⟨e, he, j, hj, k, hk, l, hl, hoo⟩
    have hbadE : ∃ a b, stepAt d e = .error (.inverseMapOutOfRange a b) := by
      apply elemStep_invmap_of_bad d e (elemOffset d e) (hq e he)
      exact ⟨(j, k, l),
        (mem_elemTriples d (elemOffset d e) _ (j, k, l)).mpr ⟨hj, hk, hl⟩, hoo⟩
    classical
    have hex : ∃ i, i < d.nInputFaces ∧ ∃ err, stepAt d i = .error err := by
      obtain ⟨a, b, hE⟩ := hbadE
      exact ⟨e, he, _, hE⟩
    obtain ⟨hi0lt, err0, herr0⟩ := Nat.find_spec hex
    have hprev : ∀ i2 < Nat.find hex, ∃ w, stepAt d i2 = .ok w := by
      intro i2 h2
      cases hw : stepAt d i2 with
      | error e2 =>
          exact absurd ⟨lt_trans h2 hi0lt, e2, hw⟩ (Nat.find_min hex h2)
      | ok w => exact ⟨w, rfl⟩
    rcases elemStep_error_cases d (Nat.find hex)
        (elemOffset d (Nat.find hex)) err0 herr0 with hu | hk2 | hsf
    · exact absurd
        ((elemStep_error_unsupported d (Nat.find hex) _).mp (hu ▸ herr0))
        (by simp [hq (Nat.find hex) hi0lt])
    · obtain ⟨a, b, hab⟩ := hk2
      refine ⟨a, b, ?_⟩
      exact (runSE4_error_iff d _).mpr ⟨Nat.find hex, hi0lt, hab ▸ herr0, hprev⟩
    · exact absurd (hsf ▸ herr0) (hs (Nat.find hex) hi0lt)

/-- C6 (amended).  Under the side conditions that every source face is a
quadrilateral and no element fails the Schur solve (ruling out the other two
error kinds), `LinearRemapSE4` fails with `InverseMapOutOfRange` if and only
if some inverse-mapped quadrature point lies strictly outside the unit square
`[0,1]²` — the tolerance is zero, and the out-of-range `(α, β)` is carried in
the error unclamped rather than being clamped into range. -/
theorem runSE4_inverse_map_error_iff (d : SE4Data)
    (hq : ∀ e < d.nInputFaces, d.inputEdges e = 4)
    (hs : ∀ e < d.nInputFaces, stepAt d e ≠ .error .schurSolveFailed) :
    (∃ a b, runSE4 d = .error (.inverseMapOutOfRange a b))
      ↔ ∃ e < d.nInputFaces, ∃ j < elemCount d e,
          ∃ k < d.overlapEdges (elemOffset d e + j) - 2, ∃ l < d.nTQ,
            outOfRange01 (d.invMap e (elemOffset d e + j) k l) :=
  run_invmap_iff d hq hs

/-- C7.  When no inverse-mapped point is out of range and no Schur solve
fails, `LinearRemapSE4` fails with `UnsupportedElement` if and only if some
source face does not have exactly 4 edges; the check precedes all quadrature
for the face (it is the first test of the element step). -/
theorem runSE4_unsupported_iff (d : SE4Data)
    (hin : ∀ e o k l, ¬ outOfRange01 (d.invMap e o k l))
    (hs : ∀ e < d.nInputFaces, stepAt d e ≠ .error .schurSolveFailed) :
    (∀ e ix, elemStep d e ix = .error .unsupportedElement
        ↔ d.inputEdges e ≠ 4)
      ∧ (runSE4 d = .error .unsupportedElement
          ↔ ∃ e < d.nInputFaces, d.inputEdges e ≠ 4) := by
  refine ⟨fun e ix => elemStep_error_unsupported d e ix, ?_⟩
  constructor
  · intro h
    obtain ⟨i, hi, hstep, _⟩ := (runSE4_error_iff d _).mp h
    exact ⟨i, hi, (elemStep_error_unsupported d i (elemOffset d i)).mp hstep⟩
  · rintro ⟨e, he, h4⟩
    classical
    have hex : ∃ i, i < d.nInputFaces ∧ d.inputEdges i ≠ 4 := ⟨e, he, h4⟩
    obtain ⟨hi0lt, h40⟩ := Nat.find_spec hex
    apply (runSE4_error_iff d _).mpr
    refine ⟨Nat.find hex, hi0lt,
      (elemStep_error_unsupported d (Nat.find hex) _).mpr h40, ?_⟩
    intro i2 h2
    have h42 : d.inputEdges i2 = 4 := by
      by_contra hne
      exact Nat.find_min hex h2 ⟨lt_trans h2 hi0lt, hne⟩
    cases hw : stepAt d i2 with
    | ok w => exact ⟨w, rfl⟩
    | error e2 =>
        exfalso
        rcases elemStep_error_cases d i2 (elemOffset d i2) e2 hw with hu | hk2 | hsf
        · exact absurd
            ((elemStep_error_unsupported d i2 (elemOffset d i2)).mp (hu ▸ hw))
            (by simp [h42])
        · obtain ⟨a, b, hab⟩ := hk2
          obtain ⟨t, _, hoo⟩ :=
            elemStep_invmap_bad d i2 (elemOffset d i2) a b (hab ▸ hw)
          exact hin i2 _ _ _ hoo
        · exact hs i2 (lt_trans h2 hi0lt) (hsf ▸ hw)

/-- C8.  For a source element with a quadrilateral face, `n ≠ 0` overlap
faces and a completed quadrature: if the overlap area misses the element area
by more than 1e-10, the element is flagged partial ("Partial element" log),
the corrector is NOT invoked, and the raw coefficients are folded into the
sparse matrix unmodified; otherwise the element step is exactly the corrector
(`ForceConsistencyConservation3` on the flattened matrix) followed by the
sparse-matrix fold of its output. -/
theorem elemStep_coverage_cases (d : SE4Data) (e ix n : ℕ)
    (raw : ℕ → ℕ → ℕ → ℚ) (h4 : d.inputEdges e = 4)
    (hn : scanCount d.overlapFirst d.nOverlapTotal e ix = n) (hn0 : n ≠ 0)
    (hraw : rawCoeff d e ix n = .ok raw) :
    (1 / 10 ^ 10 < |coverageGap d e ix n| →
        elemStep d e ix = .ok (elemContrib d e ix n raw, true))
      ∧ (¬ 1 / 10 ^ 10 < |coverageGap d e ix n| →
        elemStep d e ix
          = (applyCorrector d e ix n raw).map
              fun c => (elemContrib d e ix n c, false)) := by
  have hstep : elemStep d e ix
      = (correctedCoeff d e ix n).map
          fun w => (elemContrib d e ix n w.1, w.2) := by
    unfold elemStep
    rw [hn, if_neg (by simp [h4]), if_neg hn0]
  constructor
  · intro hgap
    rw [hstep]
    unfold correctedCoeff
    rw [hraw]
    simp only [Except.bind]
    rw [if_pos hgap]
    rfl
  · intro hgap
    rw [hstep]
    unfold correctedCoeff
    rw [hraw]
    simp only [Except.bind]
    rw [if_neg hgap]
    cases applyCorrector d e ix n raw with
    | error e2 => rfl
    | ok c => rfl

/-! ### Concrete witness instances for the LinearRemapSE4 claims -/

/-- Concrete run data: one quadrilateral source face, one triangular overlap
face attached to it, a one-point quadrature rule, and an inverse map landing
at the center of the reference square.  The overlap covers one third of the
element, so the partial-coverage branch is taken. -/
def wD : SE4Data where
  nP := 1
  nInputFaces := 1
  inputEdges := fun _ => 4
  inputArea := fun _ => 1
  nOverlapTotal := 1
  overlapFirst := fun _ => 0
  overlapSecond := fun _ => 0
  overlapEdges := fun _ => 3
  overlapArea := fun _ => 1/3
  outputArea := fun _ => 1
  gllNodes := fun _ _ _ => 1
  gllJacobian := fun _ _ _ => 1
  nTQ := 1
  tqW := fun _ => 1/2
  triArea := fun _ _ => 1/3
  invMap := fun _ _ _ _ => (1/2, 1/2)
  sample := fun _ _ _ _ _ => 1
  monotone := false

lemma wDin : ∀ t ∈ elemTriples wD 0 1,
    ¬ outOfRange01 (wD.invMap 0 (0 + t.1) t.2.1 t.2.2) := by
  intro t _
  norm_num [outOfRange01, wD]

/-- The raw coefficients of the witness instance. -/
lemma wRaw : rawCoeff wD 0 0 1
    = .ok fun p q j => ((elemTriples wD 0 1).map
        fun t => if t.1 = j then pointContrib wD 0 0 t p q else 0).sum :=
  quadLoop_ok wD 0 0 _ wDin

theorem rawCoeff_quadrature_sum_witness :
    ∃ g, rawCoeff wD 0 0 1 = .ok g ∧ g 0 0 0 = 1/2 := by
  refine ⟨_, wRaw, ?_⟩
  rw [rawCoeff_quadrature_sum wD 0 0 1 _ wRaw (by norm_num) 0 0]
  norm_num [wD, Finset.sum_range_one, pointContrib]

theorem elemStep_coverage_cases_witness :
    ∃ raw, rawCoeff wD 0 0 1 = .ok raw
      ∧ elemStep wD 0 0 = .ok (elemContrib wD 0 0 1 raw, true) := by
  refine ⟨_, wRaw, ?_⟩
  have hgap : 1 / 10 ^ 10 < |coverageGap wD 0 0 1| := by
    have hg : coverageGap wD 0 0 1 = -(2/3) := by
      norm_num [coverageGap, wD, Finset.sum_range_one]
    rw [hg, abs_neg, abs_of_pos (by norm_num)]
    norm_num
  exact (elemStep_coverage_cases wD 0 0 1 _ rfl rfl (by norm_num) wRaw).1 hgap

/-- Witness data whose inverse map lands out of range (`α = 2`). -/
def wD6 : SE4Data := { wD with invMap := fun _ _ _ _ => (2, 1/2) }

/-- Witness data whose single source face is a triangle. -/
def wD7 : SE4Data := { wD with inputEdges := fun _ => 3 }

lemma wD6bad : ∃ a b, stepAt wD6 0 = .error (.inverseMapOutOfRange a b) := by
  apply elemStep_invmap_of_bad wD6 0 (elemOffset wD6 0) rfl
  refine ⟨(0, 0, 0), (mem_elemTriples wD6 (elemOffset wD6 0) _ (0, 0, 0)).mpr
    ⟨?_, ?_, ?_⟩, ?_⟩
  · decide
  · decide
  · decide
  · norm_num [outOfRange01, wD6, wD]

lemma wD6noschur : ∀ e < wD6.nInputFaces,
    stepAt wD6 e ≠ .error .schurSolveFailed := by
  intro e he heq
  have he0 : e = 0 := Nat.lt_one_iff.mp he
  subst he0
  obtain ⟨a, b, hE⟩ := wD6bad
  rw [hE] at heq
  simp at heq

theorem runSE4_inverse_map_error_iff_witness :
    ∃ a b, runSE4 wD6 = .error (.inverseMapOutOfRange a b) := by
  apply (runSE4_inverse_map_error_iff wD6 (fun _ _ => rfl) wD6noschur).mpr
  refine ⟨0, ?_, 0, ?_, 0, ?_, 0, ?_, ?_⟩
  · decide
  · decide
  · decide
  · decide
  · norm_num [outOfRange01, wD6, wD, elemOffset]

lemma wD7step : stepAt wD7 0 = .error .unsupportedElement :=
  (elemStep_error_unsupported wD7 0 (elemOffset wD7 0)).mpr (by decide)

theorem runSE4_unsupported_iff_witness :
    runSE4 wD7 = .error .unsupportedElement := by
  have hin : ∀ e o k l, ¬ outOfRange01 (wD7.invMap e o k l) := by
    intro e o k l
    norm_num [outOfRange01, wD7, wD]
  have hs : ∀ e < wD7.nInputFaces, stepAt wD7 e ≠ .error .schurSolveFailed := by
    intro e he heq
    have he0 : e = 0 := Nat.lt_one_iff.mp he
    subst he0
    rw [wD7step] at heq
    simp at heq
  exact (runSE4_unsupported_iff wD7 hin hs).2.mpr ⟨0, Nat.one_pos, by decide⟩

/-- Out of the unit square by MORE than `tol` in some coordinate (the
tolerance-based failure condition the claim describes). -/
def outside01By (tol : ℚ) (ab : ℚ × ℚ) : Prop :=
  ab.1 < -tol ∨ 1 + tol < ab.1 ∨ ab.2 < -tol ∨ 1 + tol < ab.2

/-- One-parameter family of runs whose inverse map lands at `(a, 1/2)`. -/
def c6Mesh (a : ℚ) : SE4Data := { wD with invMap := fun _ _ _ _ => (a, 1/2) }

/-- C6 (counterexample).  The claim as stated — `LinearRemapSE4` fails with
`InverseMapOutOfRange` iff some `(α, β)` falls outside `[0, 1]` by more than
a (positive) tolerance — is false for every positive tolerance: the source
throws for any strictly out-of-range value, however small the excess.  For
each candidate `tol > 0` the run with `α = 1 + tol` (outside by exactly
`tol`, hence not by more than `tol`) fails nevertheless. -/
theorem inverse_map_tolerance_counterexample :
    ¬ ∃ tol : ℚ, 0 < tol ∧ ∀ d : SE4Data,
      (∀ e < d.nInputFaces, d.inputEdges e = 4) →
      (∀ e < d.nInputFaces, stepAt d e ≠ .error .schurSolveFailed) →
      ((∃ a b, runSE4 d = .error (.inverseMapOutOfRange a b))
        ↔ ∃ e < d.nInputFaces, ∃ j < elemCount d e,
            ∃ k < d.overlapEdges (elemOffset d e + j) - 2, ∃ l < d.nTQ,
              outside01By tol (d.invMap e (elemOffset d e + j) k l)) := by
  rintro ⟨tol, htol, hall⟩
  have hoo : outOfRange01
      ((c6Mesh (1 + tol)).invMap 0 (elemOffset (c6Mesh (1 + tol)) 0 + 0) 0 0) := by
    refine Or.inr (Or.inl ?_)
    show (1 : ℚ) < 1 + tol
    linarith
  have hq : ∀ e < (c6Mesh (1 + tol)).nInputFaces,
      (c6Mesh (1 + tol)).inputEdges e = 4 := fun _ _ => rfl
  have hbad : ∃ a b, stepAt (c6Mesh (1 + tol)) 0
      = .error (.inverseMapOutOfRange a b) := by
    apply elemStep_invmap_of_bad (c6Mesh (1 + tol)) 0
      (elemOffset (c6Mesh (1 + tol)) 0) rfl
    refine ⟨(0, 0, 0),
      (mem_elemTriples (c6Mesh (1 + tol)) _ _ (0, 0, 0)).mpr ⟨?_, ?_, ?_⟩, hoo⟩
    · show 0 < scanCount (fun _ => 0) 1 0 (elemOffset (c6Mesh (1 + tol)) 0)
      have hoff : elemOffset (c6Mesh (1 + tol)) 0 = 0 := rfl
      rw [hoff]
      decide
    · show 0 < 3 - 2
      decide
    · show 0 < 1
      decide
  have hs : ∀ e < (c6Mesh (1 + tol)).nInputFaces,
      stepAt (c6Mesh (1 + tol)) e ≠ .error .schurSolveFailed := by
    intro e he heq
    have he0 : e = 0 := Nat.lt_one_iff.mp he
    subst he0
    obtain ⟨a, b, hE⟩ := hbad
    rw [hE] at heq
    simp at heq
  have hLHS : ∃ a b, runSE4 (c6Mesh (1 + tol))
      = .error (.inverseMapOutOfRange a b) := by
    apply (run_invmap_iff (c6Mesh (1 + tol)) hq hs).mpr
    refine ⟨0, Nat.one_pos, 0, ?_, 0, ?_, 0, ?_, hoo⟩
    · show 0 < elemCount (c6Mesh (1 + tol)) 0
      have hc : elemCount (c6Mesh (1 + tol)) 0 = 1 := rfl
      rw [hc]
      decide
    · show 0 < 3 - 2
      decide
    · show 0 < 1
      decide
  obtain ⟨e, he, j, hj, k, hk, l, hl, hout⟩ :=
    (hall (c6Mesh (1 + tol)) hq hs).mp hLHS
  have hout2 : outside01By tol (1 + tol, 1/2) := hout
  unfold outside01By at hout2
  rcases hout2 with h | h | h | h
  · simp only at h
    linarith
  · simp only at h
    linarith
  · simp only at h
    linarith
  · simp only at h
    linarith

/-! ### Completeness of the modelled Schur solve: whenever `dP ≠ 0` (in
particular whenever the Schur matrix is SPD) the explicit candidate solves
the system, so the embedded corrector never spuriously fails. -/

lemma fccZ_S_eq (R Q : ℕ) (aSrc aTgt : ℕ → ℚ) (C : ℕ → ℕ → ℚ)
    (hP : schurP R aTgt ≠ 0) (hQ : 1 ≤ Q) :
    ∑ j in range (Q - 1), fccZ R Q aSrc aTgt C (R + j)
      = fccS R Q aSrc aTgt C := by
  have hQ0 : (Q : ℚ) ≠ 0 := Nat.cast_ne_zero.mpr (by omega)
  have hz : ∀ j ∈ range (Q - 1), fccZ R Q aSrc aTgt C (R + j)
      = (schurY R Q aSrc aTgt C (R + j)
          - fccA1 R Q aSrc aTgt C / (Q : ℚ)) / schurP R aTgt
        + fccS R Q aSrc aTgt C / (Q : ℚ) := by
    intro j _
    unfold fccZ
    rw [if_neg (by omega)]
  rw [Finset.sum_congr rfl hz, Finset.sum_add_distrib, ← Finset.sum_div,
    Finset.sum_sub_distrib, Finset.sum_const, Finset.sum_const, card_range,
    nsmul_eq_mul, nsmul_eq_mul]
  have hcast : ((Q - 1 : ℕ) : ℚ) = (Q : ℚ) - 1 := by
    push_cast [Nat.cast_sub hQ]
    ring
  rw [hcast]
  show ((fccT2 R Q aSrc aTgt C) - _) / _ + _ = _
  unfold fccS
  field_simp
  ring

lemma fccZ_solves (R Q : ℕ) (aSrc aTgt : ℕ → ℚ) (C : ℕ → ℕ → ℚ)
    (hP : schurP R aTgt ≠ 0) (hQ : 1 ≤ Q) :
    ∀ c ∈ range (nCond R Q),
      (∑ cc in range (nCond R Q),
        schurM R Q aTgt c cc * fccZ R Q aSrc aTgt C cc)
        = schurY R Q aSrc aTgt C c := by
  have hQ0 : (Q : ℚ) ≠ 0 := Nat.cast_ne_zero.mpr (by omega)
  intro c hc
  have hcN := mem_range.mp hc
  have hsplit : ∑ cc in range (nCond R Q),
      schurM R Q aTgt c cc * fccZ R Q aSrc aTgt C cc
      = (∑ cc in range R, schurM R Q aTgt c cc * fccZ R Q aSrc aTgt C cc)
        + ∑ j in range (Q - 1),
            schurM R Q aTgt c (R + j) * fccZ R Q aSrc aTgt C (R + j) := by
    unfold nCond
    exact sum_range_split _ R (Q - 1)
  rw [hsplit]
  rcases lt_or_ge c R with hcR | hcR
  · have h1 : ∑ cc in range R, schurM R Q aTgt c cc * fccZ R Q aSrc aTgt C cc
        = (Q : ℚ) * fccZ R Q aSrc aTgt C c := by
      have hcongr : ∀ cc ∈ range R,
          schurM R Q aTgt c cc * fccZ R Q aSrc aTgt C cc
          = if cc = c then (Q : ℚ) * fccZ R Q aSrc aTgt C cc else 0 := by
        intro cc hcc
        unfold schurM
        rw [if_pos hcR]
        by_cases h : cc = c
        · simp [h]
        · have hle : ¬ R ≤ cc := not_le.mpr (mem_range.mp hcc)
          simp [h, hle]
      rw [Finset.sum_congr rfl hcongr,
        Finset.sum_ite_eq' (range R) c
          (fun cc => (Q : ℚ) * fccZ R Q aSrc aTgt C cc),
        if_pos (mem_range.mpr hcR)]
    have h2 : ∀ j ∈ range (Q - 1),
        schurM R Q aTgt c (R + j) * fccZ R Q aSrc aTgt C (R + j)
        = aTgt c * fccZ R Q aSrc aTgt C (R + j) := by
      intro j _
      unfold schurM
      rw [if_pos hcR, if_neg (by omega), if_pos (by omega)]
    rw [h1, Finset.sum_congr rfl h2, ← Finset.mul_sum,
      fccZ_S_eq R Q aSrc aTgt C hP hQ]
    unfold fccZ
    rw [if_pos hcR]
    field_simp
  · have h1 : ∑ cc in range R, schurM R Q aTgt c cc * fccZ R Q aSrc aTgt C cc
        = (fccA1 R Q aSrc aTgt C
            - schurP R aTgt * fccS R Q aSrc aTgt C) / (Q : ℚ) := by
      have hcongr : ∀ cc ∈ range R,
          schurM R Q aTgt c cc * fccZ R Q aSrc aTgt C cc
          = (aTgt cc * schurY R Q aSrc aTgt C cc
              - aTgt cc * aTgt cc * fccS R Q aSrc aTgt C) / (Q : ℚ) := by
        intro cc hcc
        have hccR := mem_range.mp hcc
        unfold schurM fccZ
        rw [if_neg (not_lt.mpr hcR), if_pos hccR, if_pos hccR]
        field_simp
        ring
      rw [Finset.sum_congr rfl hcongr, ← Finset.sum_div,
        Finset.sum_sub_distrib, ← Finset.sum_mul]
      unfold fccA1 schurP
      rfl
    have h2 : ∀ j ∈ range (Q - 1),
        schurM R Q aTgt c (R + j) * fccZ R Q aSrc aTgt C (R + j)
        = if j = c - R then schurP R aTgt * fccZ R Q aSrc aTgt C (R + j) else 0 := by
      intro j _
      unfold schurM
      rw [if_neg (by omega), if_neg (by omega)]
      by_cases h : R + j = c
      · rw [if_pos h, if_pos (by omega : j = c - R)]
      · rw [if_neg h, if_neg (by omega : ¬ j = c - R)]
        exact zero_mul _
    rw [h1, Finset.sum_congr rfl h2,
      Finset.sum_ite_eq' (range (Q - 1)) (c - R)
        (fun j => schurP R aTgt * fccZ R Q aSrc aTgt C (R + j)),
      if_pos (mem_range.mpr (by unfold nCond at hcN; omega))]
    have hcRR : R + (c - R) = c := by omega
    rw [hcRR]
    unfold fccZ
    rw [if_neg (not_lt.mpr hcR)]
    field_simp
    ring

/-- The embedded corrector completes whenever `dP = ∑ aTgt i² ≠ 0` — in
particular whenever the Schur matrix is SPD, matching the spec's claim that
`dposv_` succeeds on the SPD system.  Together with the witnesses this shows
the success hypothesis of the claims above is not vacuous. -/
lemma fcc3_succeeds (R Q : ℕ) (aSrc aTgt : ℕ → ℚ) (C : ℕ → ℕ → ℚ) (m : Bool)
    (hP : schurP R aTgt ≠ 0) (hQ : 1 ≤ Q) :
    fcc3 R Q aSrc aTgt C m ≠ none := by
  unfold fcc3
  rw [if_pos (fccZ_solves R Q aSrc aTgt C hP hQ)]
  simp
